import Mathlib

/-!
Verification of the slowflow bulk-loading benchmark (src/app.py).

Python strings are modelled as lists of characters (`PyStr`), fallible code
returns `Except` or `Option`, and the stateful chunked reader
(`StringIteratorIO` in the source, `StringIterator` here) is modelled by
explicit state passing.  Unbounded `while` loops are embedded with an
explicit iteration bound that is provably sufficient (and proven
insensitive to any larger bound), so that every definition stays
executable.
-/

/-- Python string, modelled as its list of characters. -/
abbrev PyStr := List Char

/-- Concatenation of a list of lists (Python joining with the empty separator). -/
def concatAll : List (List α) → List α
  | [] => []
  | l :: ls => l ++ concatAll ls

/-- ASCII whitespace recognizer used to model how Python `int()` strips its input. -/
def isPySpace (c : Char) : Bool :=
  c.toNat = 32 || c.toNat = 9 || c.toNat = 10 || c.toNat = 13 || c.toNat = 11 || c.toNat = 12

/-- Strip leading and trailing whitespace, as Python `int()` does before parsing. -/
def pyStrip (s : PyStr) : PyStr :=
  ((s.dropWhile isPySpace).reverse.dropWhile isPySpace).reverse

/-- ASCII decimal digit recognizer. -/
def isDigitB (c : Char) : Bool := 48 ≤ c.toNat && c.toNat ≤ 57

/-- Numeric value of an ASCII decimal digit. -/
def digitVal (c : Char) : ℕ := c.toNat - 48

/-- Digit-string accumulator for `pyInt`: decimal digits, with single
underscores permitted between digits as in Python integer literals. -/
def digitsCore : ℕ → List Char → Option ℕ
  | acc, [] => some acc
  | acc, c :: cs =>
    if isDigitB c then digitsCore (10 * acc + digitVal c) cs
    else if c = '_' then
      match cs with
      | [] => none
      | d :: cs2 => if isDigitB d then digitsCore (10 * acc + digitVal d) cs2 else none
    else none

/-- An unsigned decimal numeral: nonempty, starts with a digit. -/
def parseUDigits : List Char → Option ℕ
  | [] => none
  | c :: cs => if isDigitB c then digitsCore (digitVal c) cs else none

/-- Model of Python `int(text)` on a string: optional surrounding whitespace,
optional sign, decimal digits; `none` models the `ValueError` raised otherwise. -/
def pyInt (s : PyStr) : Option ℤ :=
  match pyStrip s with
  | [] => none
  | c :: rest =>
    if c = '+' then (parseUDigits rest).map (fun n => (n : ℤ))
    else if c = '-' then (parseUDigits rest).map (fun n => -(n : ℤ))
    else (parseUDigits (c :: rest)).map (fun n => (n : ℤ))

/-- A Python `datetime.date` value. -/
structure PyDate where
  year : ℤ
  month : ℤ
  day : ℤ
deriving DecidableEq, Repr

/-- Gregorian leap-year rule, as used by `datetime.date`. -/
def isLeapYear (y : ℤ) : Bool := (y % 4 == 0 && y % 100 != 0) || y % 400 == 0

/-- Days in a month, as validated by the `datetime.date` constructor. -/
def daysInMonth (y m : ℤ) : ℤ :=
  if m = 2 then (if isLeapYear y then 29 else 28)
  else if m = 4 ∨ m = 6 ∨ m = 9 ∨ m = 11 then 30
  else 31

/-- Model of the `datetime.date(y, m, d)` constructor: `none` models the
`ValueError` raised on an out-of-range component. -/
def pyDate (y m d : ℤ) : Option PyDate :=
  if 1 ≤ y ∧ y ≤ 9999 ∧ 1 ≤ m ∧ m ≤ 12 ∧ 1 ≤ d ∧ d ≤ daysInMonth y m then some ⟨y, m, d⟩
  else none

/-- The two kinds of exception `parse_first_brewed` can raise:
`ValueError` (from `int()` or `datetime.date`) and the `AssertionError`
of the explicit format assertion (the DateFormatError of the spec). -/
inductive PyErr where
  | valueError
  | assertionError
deriving DecidableEq, Repr

/-- Model of Python `text.split(sep)` for a one-character separator:
always returns at least one part; splitting the empty string gives one
empty part. -/
def splitOnChar (sep : Char) : List Char → List (List Char)
  | [] => [[]]
  | c :: cs =>
    match splitOnChar sep cs with
    | [] => [[]]
    | h :: t => if c = sep then [] :: h :: t else (c :: h) :: t

/-- src/app.py lines 61-74: split the text on slashes; two parts give
`date(int(parts[1]), int(parts[0]), 1)`, one part gives
`date(int(parts[0]), 1, 1)`, anything else hits the format assertion. -/
def parse_first_brewed (s : PyStr) : Except PyErr PyDate :=
  match splitOnChar '/' s with
  | [p0, p1] =>
    match pyInt p1 with
    | none => .error .valueError
    | some y =>
      match pyInt p0 with
      | none => .error .valueError
      | some m =>
        match pyDate y m 1 with
        | none => .error .valueError
        | some d => .ok d
  | [p0] =>
    match pyInt p0 with
    | none => .error .valueError
    | some y =>
      match pyDate y 1 1 with
      | none => .error .valueError
      | some d => .ok d
  | _ => .error .assertionError

/-- Shape `MM/YYYY` of the spec: a two-digit month 01..12, a slash, and a
four-digit year (a year `datetime.date` can represent). -/
def isShapeMMYYYY (s : PyStr) : Bool :=
  match s with
  | [m1, m2, sl, y1, y2, y3, y4] =>
    sl = '/' && isDigitB m1 && isDigitB m2 &&
    isDigitB y1 && isDigitB y2 && isDigitB y3 && isDigitB y4 &&
    (let mm := 10 * digitVal m1 + digitVal m2
     let yy := 1000 * digitVal y1 + 100 * digitVal y2 + 10 * digitVal y3 + digitVal y4
     decide (1 ≤ mm) && decide (mm ≤ 12) && decide (1 ≤ yy))
  | _ => false

/-- Shape `YYYY` of the spec: a four-digit year a `datetime.date` can represent. -/
def isShapeYYYY (s : PyStr) : Bool :=
  match s with
  | [y1, y2, y3, y4] =>
    isDigitB y1 && isDigitB y2 && isDigitB y3 && isDigitB y4 &&
    decide (1 ≤ 1000 * digitVal y1 + 100 * digitVal y2 + 10 * digitVal y3 + digitVal y4)
  | _ => false

/-- The ASCII digit character for a value 0..9. -/
def dchar (n : ℕ) : Char := ['0', '1', '2', '3', '4', '5', '6', '7', '8', '9'].getD n '0'

/-- The two-digit zero-padded decimal rendering of a number below 100. -/
def twoDigits (m : ℕ) : PyStr := [dchar (m / 10), dchar (m % 10)]

/-- The four-digit zero-padded decimal rendering of a number below 10000. -/
def fourDigits (y : ℕ) : PyStr :=
  [dchar (y / 1000), dchar (y / 100 % 10), dchar (y / 10 % 10), dchar (y % 10)]

/-- Convenience: characters of a string literal. -/
def chars (s : String) : PyStr := s.toList

/- ### The bulk-text serialization (src/app.py lines 372-403) -/

/-- Python `s.replace(chr(10), backslash-n)`: each newline character becomes
the two-character sequence backslash `n`. -/
def escapeNewlines (s : PyStr) : PyStr :=
  concatAll (s.map (fun c => if c = '\n' then ['\\', 'n'] else [c]))

/-- src/app.py lines 372-375: `None` becomes the two-character sequence
backslash `N`; any other value is rendered with `str` (values are modelled
by their `str` image here) and has newlines escaped. -/
def clean_csv_value : Option PyStr → PyStr
  | none => ['\\', 'N']
  | some v => escapeNewlines v

/-- Python `sep.join(parts)` for a one-character separator. -/
def intercalateChar (sep : Char) : List PyStr → PyStr
  | [] => []
  | [p] => p
  | p :: ps => p ++ sep :: intercalateChar sep ps

/-- One record's line of the bulk-text format, before its terminating
newline: cleaned fields joined by the pipe delimiter. -/
def serializeRecordLine (fields : List (Option PyStr)) : PyStr :=
  intercalateChar '|' (fields.map clean_csv_value)

/-- One record's full line, terminated by a newline, exactly as written
into the `io.StringIO` buffer by `copy_stringio`. -/
def serializeRecord (fields : List (Option PyStr)) : PyStr :=
  serializeRecordLine fields ++ ['\n']

/-- The whole bulk-text buffer for a batch of records. -/
def serializeBatch (batch : List (List (Option PyStr))) : PyStr :=
  concatAll (batch.map serializeRecord)

/-- Reverses `escapeNewlines`: Python `s.replace(backslash-n, chr(10))`,
scanning left to right over non-overlapping occurrences. -/
def unescapeNewlines : PyStr → PyStr
  | [] => []
  | [c] => [c]
  | c :: d :: rest =>
    if c = '\\' ∧ d = 'n' then '\n' :: unescapeNewlines rest
    else c :: unescapeNewlines (d :: rest)

/-- Claim C3's parse-back of a single field: the NULL sentinel backslash `N`
becomes `none`; otherwise the newline escaping is reversed. -/
def unescapeField (f : PyStr) : Option PyStr :=
  if f = ['\\', 'N'] then none else some (unescapeNewlines f)

/-- Claim C3's parse-back of one line: split on the pipe delimiter and
reverse the field escaping. -/
def parseBackLine (line : PyStr) : List (Option PyStr) :=
  (splitOnChar '|' line).map unescapeField

/-- Claim C3's parse-back of the whole buffer: split into newline-terminated
lines, then parse each line. -/
def parseBack (text : PyStr) : List (List (Option PyStr)) :=
  ((splitOnChar '\n' text).dropLast).map parseBackLine

/- ### The data model (src/app.py lines 30-52 and the record accesses) -/

/-- A Raw Record as consumed by the loaders: every field is carried by its
`str` image (`none` models a JSON null); `first_brewed` is the raw date
text and `volume_value` the already unwrapped `volume.value`. -/
structure Beer where
  id : Option PyStr
  name : Option PyStr
  tagline : Option PyStr
  first_brewed : PyStr
  description : Option PyStr
  image_url : Option PyStr
  abv : Option PyStr
  ibu : Option PyStr
  target_fg : Option PyStr
  target_og : Option PyStr
  ebc : Option PyStr
  srm : Option PyStr
  ph : Option PyStr
  attenuation_level : Option PyStr
  brewers_tips : Option PyStr
  contributed_by : Option PyStr
  volume_value : Option PyStr

/-- Python `str(date)`, the ISO rendering `YYYY-MM-DD`. -/
def dateIso (d : PyDate) : PyStr :=
  fourDigits d.year.toNat ++ '-' :: twoDigits d.month.toNat ++ '-' :: twoDigits d.day.toNat

/-- The columns of `staging_beers` in declared order (src/app.py lines 33-51,
`CREATE_TABLE`); note the DDL spells the tenth column `target_ob`. -/
def stagingBeersColumns : List String :=
  ["id", "name", "tagline", "first_brewed", "description", "image_url", "abv", "ibu",
   "target_fg", "target_ob", "ebc", "srm", "ph", "attenuation_level", "brewers_tips",
   "contributed_by", "volume"]

/-- The named parameters of the INSERT statements, in the positional order
they are written (src/app.py lines 128-147 and all other INSERT variants). -/
def insertSqlParamOrder : List String :=
  ["id", "name", "tagline", "first_brewed", "description", "image_url", "abv", "ibu",
   "target_fg", "target_og", "ebc", "srm", "ph", "attenuation_level", "brewers_tips",
   "contributed_by", "volume"]

/-- The record keys accessed, in order, by `copy_stringio` when building a
line (src/app.py lines 383-400): `contributed_by` comes before
`brewers_tips` there. -/
def copyStringioKeyOrder : List String :=
  ["id", "name", "tagline", "first_brewed", "description", "image_url", "abv", "ibu",
   "target_fg", "target_og", "ebc", "srm", "ph", "attenuation_level", "contributed_by",
   "brewers_tips", "volume"]

/-- The record keys accessed, in order, by `copy_string_iterator`
(src/app.py lines 453-470). -/
def copyStringIteratorKeyOrder : List String :=
  ["id", "name", "tagline", "first_brewed", "description", "image_url", "abv", "ibu",
   "target_fg", "target_og", "ebc", "srm", "ph", "attenuation_level", "brewers_tips",
   "contributed_by", "volume"]

/-- The field tuple `copy_stringio` feeds to `clean_csv_value`, in source
order (src/app.py lines 383-400), given the parsed `first_brewed` date. -/
def copyStringioTuple (b : Beer) (d : PyDate) : List (Option PyStr) :=
  [b.id, b.name, b.tagline, some (dateIso d), b.description, b.image_url, b.abv, b.ibu,
   b.target_fg, b.target_og, b.ebc, b.srm, b.ph, b.attenuation_level, b.contributed_by,
   b.brewers_tips, b.volume_value]

/-- The field tuple in the order of the declared destination columns, which
is also the order used by `copy_string_iterator` (src/app.py lines 453-470)
and by every INSERT variant. -/
def schemaOrderedTuple (b : Beer) (d : PyDate) : List (Option PyStr) :=
  [b.id, b.name, b.tagline, some (dateIso d), b.description, b.image_url, b.abv, b.ibu,
   b.target_fg, b.target_og, b.ebc, b.srm, b.ph, b.attenuation_level, b.brewers_tips,
   b.contributed_by, b.volume_value]

/- ### The pull-based text adapter (src/app.py lines 406-439) -/

/-- State of the `StringIteratorIO` adapter: the leftover buffer and the
not-yet-pulled lines of the underlying iterator. -/
structure StringIterator where
  buff : PyStr
  rest : List PyStr
deriving DecidableEq, Repr

namespace StringIterator

/-- All text not yet returned by the adapter. -/
def remaining (s : StringIterator) : PyStr := s.buff ++ concatAll s.rest

/-- The `while not self.buff` loop of `read1`: pull lines until the buffer
is nonempty or the iterator signals exhaustion. -/
def refill (b : PyStr) : List PyStr → PyStr × List PyStr
  | [] => (b, [])
  | l :: ls => if b = [] then refill l ls else (b, l :: ls)

/-- Python `l[:n]` for an optional, possibly negative bound. -/
def pySliceTo (n : Option ℤ) (l : PyStr) : PyStr :=
  match n with
  | none => l
  | some k => if 0 ≤ k then l.take k.toNat else l.take (l.length - (-k).toNat)

/-- src/app.py lines 414-422: refill the buffer, return its slice up to `n`
characters, and keep the rest buffered. -/
def read1 (n : Option ℤ) (s : StringIterator) : PyStr × StringIterator :=
  let p := refill s.buff s.rest
  let ret := pySliceTo n p.1
  (ret, ⟨p.1.drop ret.length, p.2⟩)

/-- The `while True` accumulation loop of `read` for `n` absent or negative,
with an explicit iteration bound (the loop makes progress on every
iteration, so the bound used by `read` below is provably sufficient). -/
def readNegAux : ℕ → Option ℤ → StringIterator → PyStr × StringIterator
  | 0, _, s => ([], s)
  | fuel + 1, n, s =>
    let r := read1 n s
    if r.1 = [] then ([], r.2)
    else
      let t := readNegAux fuel n r.2
      (r.1 ++ t.1, t.2)

/-- The `while n > 0` accumulation loop of `read` for a nonnegative `n`,
with an explicit iteration bound. -/
def readPosAux : ℕ → ℤ → StringIterator → PyStr × StringIterator
  | 0, _, s => ([], s)
  | fuel + 1, k, s =>
    if k ≤ 0 then ([], s)
    else
      let r := read1 (some k) s
      if r.1 = [] then ([], r.2)
      else
        let t := readPosAux fuel (k - r.1.length) r.2
        (r.1 ++ t.1, t.2)

/-- src/app.py lines 424-439: `read` dispatches on `n` being absent or
negative versus nonnegative and accumulates chunks from `read1`. -/
def read (n : Option ℤ) (s : StringIterator) : PyStr × StringIterator :=
  match n with
  | none => readNegAux ((remaining s).length + 1) none s
  | some k =>
    if k < 0 then readNegAux ((remaining s).length + 1) (some k) s
    else readPosAux k.toNat k s

end StringIterator

/-- The initial adapter state over a sequence of lines. -/
def ofLines (lines : List PyStr) : StringIterator := ⟨[], lines⟩

/-- Repeatedly call `read` with the given schedule of sizes, collecting the
returned chunks. -/
def readChunks (sizes : List ℕ) (s : StringIterator) : List PyStr × StringIterator :=
  match sizes with
  | [] => ([], s)
  | k :: ks =>
    let r := StringIterator.read (some (k : ℤ)) s
    let t := readChunks ks r.2
    (r.1 :: t.1, t.2)

/- ### The profiling harness (src/app.py lines 100-118) -/

/-- What one benchmark entry reports: the wall-clock delta around the first
execution, and the memory samples taken during the second execution. -/
structure ProfileReport where
  elapsed : ℚ
  memSamples : List ℚ

section ProfileModel

variable {W R : Type}

/-- Model of `memory_usage((fn, args, kwargs), retval=True, ...)`: runs the
callable once on the current world, returning the samples taken during
that run (sampling is an external observation, passed in as `samp`), the
callable's return value, and the world after the run. -/
def memory_usage (fn : W → W × R) (samp : W → W → List ℚ) (w : W) : List ℚ × R × W :=
  let p := fn w
  (samp w p.1, p.2, p.1)

/-- src/app.py lines 100-118: the wrapper reads the clock, runs the
callable once, reads the clock again, then runs it a second time under
`memory_usage`, and returns the second run's return value together with
the report. -/
def profile (fn : W → W × R) (clock : W → ℚ) (samp : W → W → List ℚ) (w : W) :
    (W × R) × ProfileReport :=
  let t := clock w
  let p1 := fn w
  let elapsed := clock p1.1 - t
  let m := memory_usage fn samp p1.1
  ((m.2.2, m.2.1), ⟨elapsed, m.1⟩)

end ProfileModel

/- ### The paginated record source (src/app.py lines 78-96) -/

/-- The `while True` pagination loop of `iter_beers_from_api`, over a
modelled server response function, with an explicit page bound: fetch the
current page, stop on an empty response, otherwise yield the page and
advance the counter by one. -/
def iterBeersAux (server : ℕ → List α) : ℕ → ℕ → List α
  | _page, 0 => []
  | page, fuel + 1 =>
    match server page with
    | [] => []
    | d :: ds => (d :: ds) ++ iterBeersAux server (page + 1) fuel

/-- src/app.py lines 78-96: pagination starts at page 1. -/
def iter_beers_from_api (server : ℕ → List α) (fuel : ℕ) : List α :=
  iterBeersAux server 1 fuel

/-- The concatenation, in order, of the server's pages `start`,
`start + 1`, ..., `start + len - 1`. -/
def pagesConcat (server : ℕ → List α) (start len : ℕ) : List α :=
  concatAll ((List.range' start len).map server)

/- ### The loader strategies as destination-table transformers -/

/-- A destination row: the positional column values. -/
abbrev Row := List (Option PyStr)

/-- The destination table's contents. -/
abbrev DB := List Row

/-- src/app.py lines 55-56 with lines 30-52: drop the table if it exists
and recreate it empty, whatever it held before. -/
def create_staging_table (_db : DB) : DB := []

/-- The normalized tuple shared by the INSERT-based strategies: the raw
record with `first_brewed` parsed and `volume` unwrapped, in the
positional order of the statements (src/app.py lines 293-311 etc.). -/
def normalizeBeerTuple (b : Beer) : Except PyErr Row :=
  match parse_first_brewed b.first_brewed with
  | .error e => .error e
  | .ok d => .ok (schemaOrderedTuple b d)

/-- Normalize a whole record list; the first failure aborts. -/
def normalizeAll : List Beer → Except PyErr (List Row)
  | [] => .ok []
  | b :: bs =>
    match normalizeBeerTuple b with
    | .error e => .error e
    | .ok r =>
      match normalizeAll bs with
      | .error e => .error e
      | .ok rs => .ok (r :: rs)

/-- The row-at-a-time insert loop: each record is normalized and appended;
a normalization failure aborts the loop, keeping the rows already written. -/
def insertRows : List Beer → DB → DB
  | [], acc => acc
  | b :: bs, acc =>
    match normalizeBeerTuple b with
    | .error _ => acc
    | .ok row => insertRows bs (acc ++ [row])

/-- src/app.py lines 123-152: recreate the table, then insert one row per
record. -/
def insert_one_by_one (beers : List Beer) (db : DB) : DB :=
  insertRows beers (create_staging_table db)

/-- src/app.py lines 154-184: recreate the table, materialize the whole
normalized list, then issue one batched insert (nothing is inserted when
normalization of the materialized list fails). -/
def insert_executemany (beers : List Beer) (db : DB) : DB :=
  match normalizeAll beers with
  | .error _ => create_staging_table db
  | .ok rows => create_staging_table db ++ rows

/-- Split rows into consecutive pages of `ps` rows (the chunking performed
by `psycopg2.extras.execute_values` with `page_size=ps`), with an explicit
bound that is sufficient for any positive page size. -/
def chunkPagesAux : ℕ → ℕ → List α → List (List α)
  | 0, _, _ => []
  | _fuel + 1, _, [] => []
  | fuel + 1, ps, r :: rs => (r :: rs.take (ps - 1)) :: chunkPagesAux fuel ps (rs.drop (ps - 1))

/-- Pages of `ps` rows in order. -/
def chunkPages (ps : ℕ) (rows : List α) : List (List α) :=
  chunkPagesAux rows.length ps rows

/-- src/app.py lines 314-338, the first definition of
`insert_execute_values_iterator`: recreate the table and feed the streamed
normalized tuples to `execute_values`, which pages them with its default
page size of 100. -/
def insert_execute_values_iterator_def1 (beers : List Beer) (db : DB) : DB :=
  match normalizeAll beers with
  | .error _ => create_staging_table db
  | .ok rows => create_staging_table db ++ concatAll (chunkPages 100 rows)

/-- src/app.py lines 340-368, the second definition of
`insert_execute_values_iterator` (the one the module name resolves to):
same, but with a caller-chosen `page_size`. -/
def insert_execute_values_iterator_def2 (beers : List Beer) (page_size : ℕ) (db : DB) : DB :=
  match normalizeAll beers with
  | .error _ => create_staging_table db
  | .ok rows => create_staging_table db ++ concatAll (chunkPages page_size rows)

/-- The bulk-text buffer built by `copy_stringio` (src/app.py lines
378-401): one serialized line per record, in `copy_stringio`'s field
order; the first date-parse failure aborts the buffer construction. -/
def copyBuffer : List Beer → Except PyErr PyStr
  | [] => .ok []
  | b :: bs =>
    match parse_first_brewed b.first_brewed with
    | .error e => .error e
    | .ok d =>
      match copyBuffer bs with
      | .error e => .error e
      | .ok restText => .ok (serializeRecord (copyStringioTuple b d) ++ restText)

/-- src/app.py lines 377-403: recreate the table, build the whole text
buffer, and bulk-load it (the server side splits the text back into rows;
nothing is loaded when building the buffer fails). -/
def copy_stringio (beers : List Beer) (db : DB) : DB :=
  match copyBuffer beers with
  | .error _ => create_staging_table db
  | .ok text => create_staging_table db ++ parseBack text

/-- The bulk-text buffer of `copy_string_iterator` (src/app.py lines
452-473), which uses the schema field order and an explicit `isoformat`. -/
def copyIterBuffer : List Beer → Except PyErr PyStr
  | [] => .ok []
  | b :: bs =>
    match parse_first_brewed b.first_brewed with
    | .error e => .error e
    | .ok d =>
      match copyIterBuffer bs with
      | .error e => .error e
      | .ok restText => .ok (serializeRecord (schemaOrderedTuple b d) ++ restText)

/-- src/app.py lines 443-475: recreate the table and bulk-load the lazily
produced text through the pull-based adapter in chunks of `size`
characters (the adapter reassembles exactly the buffer text). -/
def copy_string_iterator (beers : List Beer) ( size : ℕ) (db : DB) : DB :=
  match copyIterBuffer beers with
  | .error _ => create_staging_table db
  | .ok text => create_staging_table db ++ parseBack text

/- ### The module's top-level bindings (for claim C10) -/

/-- The module's top-level `def` statements in source order, paired with
their starting line numbers. -/
def moduleDefs : List (String × ℕ) :=
  [("create_staging_table", 55), ("parse_first_brewed", 61), ("iter_beers_from_api", 78),
   ("profile", 100), ("insert_one_by_one", 123), ("insert_executemany", 154),
   ("insert_executemany_iterator", 186), ("insert_execute_batch", 216),
   ("insert_execute_batch_iterator", 249), ("insert_execute_values", 287),
   ("insert_execute_values_iterator", 314), ("insert_execute_values_iterator", 340),
   ("clean_csv_value", 372), ("copy_stringio", 377), ("StringIteratorIO", 406),
   ("copy_string_iterator", 443), ("main", 478)]

/-- Python module-level name resolution: sequential `def` statements rebind
the name, so a lookup sees the last definition. -/
def pyResolve (name : String) : Option ℕ :=
  ((moduleDefs.filter (fun d => d.1 = name)).getLast?).map (fun d => d.2)

/- ### Concrete sample inputs used by witnesses and counterexamples -/

/-- A concrete raw record with distinct `brewers_tips` and `contributed_by`. -/
def sampleBeer : Beer :=
  { id := some (chars "1"), name := some (chars "Buzz"), tagline := some (chars "A Real Bitter Experience."),
    first_brewed := chars "09/2007", description := some (chars "A light, crisp and bitter IPA."),
    image_url := some (chars "https://images.punkapi.com/v2/keg.png"), abv := some (chars "4.5"),
    ibu := some (chars "60"), target_fg := some (chars "1010"), target_og := some (chars "1044"),
    ebc := some (chars "20"), srm := some (chars "10"), ph := some (chars "4.4"),
    attenuation_level := some (chars "75"), brewers_tips := some (chars "The earthy and floral aromas."),
    contributed_by := some (chars "Sam Mason <samjbmason>"), volume_value := some (chars "20") }

/-- The date `sampleBeer.first_brewed` parses to. -/
def sampleDate : PyDate := ⟨2007, 9, 1⟩

/-- A modelled server: pages 1 and 2 hold one record each, page 3 is empty. -/
def exServer : ℕ → List ℕ := fun p => if p < 3 then [p] else []

/-- A 17-field normalized record whose last field is the literal
two-character string backslash `N` (not a NULL). -/
def cxBatch : List (List (Option PyStr)) :=
  [List.replicate 16 (some ['a']) ++ [some ['\\', 'N']]]

/-- A batch exercising NULLs and embedded newlines. -/
def exBatch : List (List (Option PyStr)) :=
  [[some ['a', '\n', 'b'], none, some []], [none, some ['x'], some ['\n']]]

/-- A 17-field record whose third field value contains the pipe delimiter. -/
def cxPipeFields : List (Option PyStr) :=
  (List.replicate 2 (some ['a'])) ++ [some ['b', '|', 'c']] ++ List.replicate 14 (some ['d'])

/- ### General helper lemmas -/

theorem char_eq_of_toNat {c d : Char} (h : c.toNat = d.toNat) : c = d :=
  Char.ext (UInt32.ext h)

theorem concatAll_append (l1 l2 : List (List α)) :
    concatAll (l1 ++ l2) = concatAll l1 ++ concatAll l2 := by
  induction l1 with
  | nil => rfl
  | cons a as ih => simp [concatAll, ih]

theorem list_map_self {α : Type} (l : List α) (f : α → α) (h : ∀ x ∈ l, f x = x) :
    l.map f = l := by
  induction l with
  | nil => rfl
  | cons a as ih =>
    simp only [List.map_cons, h a (List.mem_cons_self a as),
      ih (fun x hx => h x (List.mem_cons_of_mem a hx))]

theorem splitOnChar_ne_nil (sep : Char) (l : List Char) : splitOnChar sep l ≠ [] := by
  cases l with
  | nil => simp [splitOnChar]
  | cons c cs =>
    cases h : splitOnChar sep cs with
    | nil => simp [splitOnChar, h]
    | cons x t => simp only [splitOnChar, h]; split <;> simp

theorem splitOnChar_not_mem (sep : Char) (l : List Char) (h : sep ∉ l) :
    splitOnChar sep l = [l] := by
  induction l with
  | nil => rfl
  | cons c cs ih =>
    have hc : ¬(c = sep) := by rintro rfl; exact h (List.mem_cons_self c cs)
    have hcs : sep ∉ cs := fun hm => h (List.mem_cons_of_mem _ hm)
    simp [splitOnChar, ih hcs, hc]

theorem splitOnChar_append (sep : Char) (l r : List Char) (hl : sep ∉ l) :
    splitOnChar sep (l ++ sep :: r) = l :: splitOnChar sep r := by
  induction l with
  | nil =>
    cases hr : splitOnChar sep r with
    | nil => exact absurd hr (splitOnChar_ne_nil sep r)
    | cons x t => simp [splitOnChar, hr]
  | cons c cs ih =>
    have hc : ¬(c = sep) := by rintro rfl; exact hl (List.mem_cons_self c cs)
    have hcs : sep ∉ cs := fun hm => hl (List.mem_cons_of_mem _ hm)
    simp [splitOnChar, List.cons_append, ih hcs, hc]

theorem splitOnChar_length (sep : Char) (l : List Char) :
    (splitOnChar sep l).length = l.count sep + 1 := by
  induction l with
  | nil => simp [splitOnChar]
  | cons c cs ih =>
    cases hm : splitOnChar sep cs with
    | nil => exact absurd hm (splitOnChar_ne_nil sep cs)
    | cons x t =>
      have hlen : (x :: t).length = cs.count sep + 1 := hm ▸ ih
      by_cases hc : c = sep
      · subst hc; simp only [splitOnChar, hm, if_pos rfl]
        simp only [List.length_cons] at *
        simp [List.count_cons]
        omega
      · simp only [splitOnChar, hm, if_neg hc]
        simp only [List.length_cons] at *
        simp [List.count_cons, hc]
        omega

theorem intercalateChar_cons2 (sep : Char) (p q : PyStr) (rest : List PyStr) :
    intercalateChar sep (p :: q :: rest) = p ++ sep :: intercalateChar sep (q :: rest) := rfl

theorem splitOnChar_intercalate (sep : Char) (parts : List PyStr) (hne : parts ≠ [])
    (hp : ∀ p ∈ parts, sep ∉ p) :
    splitOnChar sep (intercalateChar sep parts) = parts := by
  induction parts with
  | nil => exact absurd rfl hne
  | cons p ps ih =>
    cases ps with
    | nil => exact splitOnChar_not_mem sep p (hp p (List.mem_cons_self p []))
    | cons q rest =>
      rw [intercalateChar_cons2,
        splitOnChar_append sep p _ (hp p (List.mem_cons_self p _)),
        ih (by simp) (fun x hx => hp x (List.mem_cons_of_mem p hx))]

theorem count_intercalateChar (sep : Char) (parts : List PyStr) (hne : parts ≠ []) :
    (intercalateChar sep parts).count sep
      = parts.length - 1 + (parts.map (fun p => p.count sep)).sum := by
  induction parts with
  | nil => exact absurd rfl hne
  | cons p ps ih =>
    cases ps with
    | nil => simp [intercalateChar]
    | cons q rest =>
      rw [intercalateChar_cons2]
      have := ih (by simp)
      simp only [List.count_append, List.count_cons] at *
      simp only [List.map_cons, List.sum_cons, List.length_cons] at *
      simp at this ⊢
      omega

theorem not_mem_intercalateChar (sep c : Char) (parts : List PyStr)
    (hc : c ≠ sep) (hp : ∀ p ∈ parts, c ∉ p) : c ∉ intercalateChar sep parts := by
  induction parts with
  | nil => simp [intercalateChar]
  | cons p ps ih =>
    cases ps with
    | nil => exact hp p (List.mem_cons_self p [])
    | cons q rest =>
      rw [intercalateChar_cons2]
      intro hmem
      rcases List.mem_append.mp hmem with h1 | h2
      · exact hp p (List.mem_cons_self p _) h1
      · rcases List.mem_cons.mp h2 with h3 | h4
        · exact hc h3
        · exact ih (fun x hx => hp x (List.mem_cons_of_mem p hx)) h4

/- ### Lemmas about the serialization escaping -/

theorem escapeNewlines_nil : escapeNewlines [] = [] := rfl

theorem escapeNewlines_cons (c : Char) (cs : PyStr) :
    escapeNewlines (c :: cs) = (if c = '\n' then ['\\', 'n'] else [c]) ++ escapeNewlines cs := rfl

theorem newline_not_mem_escape (v : PyStr) : '\n' ∉ escapeNewlines v := by
  induction v with
  | nil => simp [escapeNewlines_nil]
  | cons c cs ih =>
    rw [escapeNewlines_cons]
    by_cases hc : c = '\n' <;> simp [hc, ih]
    exact fun h => hc h.symm

theorem newline_not_mem_clean (f : Option PyStr) : '\n' ∉ clean_csv_value f := by
  cases f with
  | none => decide
  | some v => exact newline_not_mem_escape v

theorem count_escape_pipe (v : PyStr) : (escapeNewlines v).count '|' = v.count '|' := by
  induction v with
  | nil => rfl
  | cons c cs ih =>
    rw [escapeNewlines_cons]
    by_cases hc : c = '\n' <;> simp [hc, List.count_append, List.count_cons, ih]

theorem escape_eq_self (v : PyStr) (h : '\n' ∉ v) : escapeNewlines v = v := by
  induction v with
  | nil => rfl
  | cons c cs ih =>
    have hc : ¬(c = '\n') := by rintro rfl; exact h (List.mem_cons_self _ _)
    rw [escapeNewlines_cons, if_neg hc, ih (fun hm => h (List.mem_cons_of_mem _ hm))]
    rfl

theorem escape_eq_nil_iff (v : PyStr) : escapeNewlines v = [] ↔ v = [] := by
  cases v with
  | nil => simp [escapeNewlines_nil]
  | cons c cs =>
    rw [escapeNewlines_cons]
    by_cases hc : c = '\n' <;> simp [hc]

theorem unescape_escape (v : PyStr) (h : '\\' ∉ v) :
    unescapeNewlines (escapeNewlines v) = v := by
  induction v with
  | nil => rfl
  | cons c cs ih =>
    have hc : ¬(c = '\\') := by rintro rfl; exact h (List.mem_cons_self _ _)
    have hcs : '\\' ∉ cs := fun hm => h (List.mem_cons_of_mem _ hm)
    rw [escapeNewlines_cons]
    by_cases hnl : c = '\n'
    · subst hnl
      rw [if_pos rfl]
      have hu : unescapeNewlines ('\\' :: 'n' :: escapeNewlines cs)
          = '\n' :: unescapeNewlines (escapeNewlines cs) := by
        simp [unescapeNewlines]
      show unescapeNewlines ('\\' :: 'n' :: escapeNewlines cs) = '\n' :: cs
      rw [hu, ih hcs]
    · rw [if_neg hnl]
      cases he : escapeNewlines cs with
      | nil =>
        have : cs = [] := (escape_eq_nil_iff cs).mp he
        subst this
        rfl
      | cons e es =>
        simp only [List.cons_append, List.nil_append]
        rw [show unescapeNewlines (c :: e :: es) = c :: unescapeNewlines (e :: es) by
          simp [unescapeNewlines, hc]]
        rw [← he, ih hcs]

theorem escape_ne_nullSentinel (v : PyStr) (h : '\\' ∉ v) :
    escapeNewlines v ≠ ['\\', 'N'] := by
  cases v with
  | nil => simp [escapeNewlines_nil]
  | cons c cs =>
    have hc : ¬(c = '\\') := by rintro rfl; exact h (List.mem_cons_self _ _)
    rw [escapeNewlines_cons]
    by_cases hnl : c = '\n'
    · rw [if_pos hnl]
      intro h1
      simp only [List.cons_append, List.nil_append] at h1
      injection h1 with e1 e2
      injection e2 with e3 e4
      exact absurd e3 (by decide)
    · rw [if_neg hnl]
      intro h1
      simp only [List.cons_append, List.nil_append] at h1
      injection h1 with e1 e2
      exact hc e1

/- ### Lemmas about digits and the integer parser -/

theorem dchar_toNat (n : ℕ) (h : n < 10) : (dchar n).toNat = 48 + n := by
  interval_cases n <;> rfl

theorem dchar_isDigitB (n : ℕ) (h : n < 10) : isDigitB (dchar n) = true := by
  interval_cases n <;> rfl

theorem digitVal_dchar (n : ℕ) (h : n < 10) : digitVal (dchar n) = n := by
  interval_cases n <;> rfl

theorem dchar_ne_slash (n : ℕ) (h : n < 10) : dchar n ≠ '/' := by
  interval_cases n <;> decide

theorem isDigitB_bounds {c : Char} (h : isDigitB c = true) :
    48 ≤ c.toNat ∧ c.toNat ≤ 57 := by
  simp only [isDigitB, Bool.and_eq_true, decide_eq_true_eq] at h
  exact h

theorem isDigitB_not_space {c : Char} (h : isDigitB c = true) : isPySpace c = false := by
  have hb := isDigitB_bounds h
  simp only [isPySpace, Bool.or_eq_false_iff, decide_eq_false_iff_not]
  omega

theorem isDigitB_ne_plus {c : Char} (h : isDigitB c = true) : ¬(c = '+') := by
  have hb := isDigitB_bounds h
  rintro rfl
  simp at hb

theorem isDigitB_ne_minus {c : Char} (h : isDigitB c = true) : ¬(c = '-') := by
  have hb := isDigitB_bounds h
  rintro rfl
  simp at hb

theorem dchar_digitVal {c : Char} (h : isDigitB c = true) : dchar (digitVal c) = c := by
  have hb := isDigitB_bounds h
  have hv : digitVal c < 10 := by simp only [digitVal]; omega
  apply char_eq_of_toNat
  rw [dchar_toNat _ hv]
  simp only [digitVal]
  omega

theorem dropWhile_false {p : Char → Bool} {l : List Char}
    (h : ∀ c ∈ l, p c = false) : l.dropWhile p = l := by
  cases l with
  | nil => rfl
  | cons c cs => simp [List.dropWhile_cons, h c (List.mem_cons_self c cs)]

theorem pyStrip_digits (l : PyStr) (h : ∀ c ∈ l, isDigitB c = true) : pyStrip l = l := by
  unfold pyStrip
  rw [dropWhile_false (fun c hc => isDigitB_not_space (h c hc))]
  rw [dropWhile_false (fun c hc => isDigitB_not_space (h c (List.mem_reverse.mp hc)))]
  exact List.reverse_reverse l

theorem digitsCore_all (l : PyStr) (h : ∀ c ∈ l, isDigitB c = true) (acc : ℕ) :
    digitsCore acc l = some (l.foldl (fun a c => 10 * a + digitVal c) acc) := by
  induction l generalizing acc with
  | nil => rfl
  | cons c cs ih =>
    have hc := h c (List.mem_cons_self c cs)
    have step : digitsCore acc (c :: cs) = digitsCore (10 * acc + digitVal c) cs := by
      rw [digitsCore.eq_def]
      simp only []
      rw [if_pos hc]
    rw [step, List.foldl_cons]
    exact ih (fun x hx => h x (List.mem_cons_of_mem c hx)) _

theorem pyInt_eq_of_strip (s : PyStr) (c : Char) (rest : List Char)
    (hs : pyStrip s = c :: rest) :
    pyInt s = (if c = '+' then (parseUDigits rest).map (fun n => (n : ℤ))
      else if c = '-' then (parseUDigits rest).map (fun n => -(n : ℤ))
      else (parseUDigits (c :: rest)).map (fun n => (n : ℤ))) := by
  unfold pyInt
  rw [hs]

theorem pyInt_digits (l : PyStr) (hne : l ≠ []) (h : ∀ c ∈ l, isDigitB c = true) :
    pyInt l = some ((l.foldl (fun a c => 10 * a + digitVal c) 0 : ℕ) : ℤ) := by
  cases l with
  | nil => exact absurd rfl hne
  | cons c cs =>
    have hc := h c (List.mem_cons_self c cs)
    rw [pyInt_eq_of_strip (c :: cs) c cs (pyStrip_digits _ h)]
    rw [if_neg (isDigitB_ne_plus hc), if_neg (isDigitB_ne_minus hc)]
    have hp : parseUDigits (c :: cs)
        = some ((c :: cs).foldl (fun a c => 10 * a + digitVal c) 0) := by
      show (if isDigitB c then digitsCore (digitVal c) cs else none)
          = some ((c :: cs).foldl (fun a c => 10 * a + digitVal c) 0)
      rw [if_pos hc, digitsCore_all cs (fun x hx => h x (List.mem_cons_of_mem c hx))]
      rw [List.foldl_cons]
      norm_num
    rw [hp]
    simp

theorem daysInMonth_ge_one (y m : ℤ) : 1 ≤ daysInMonth y m := by
  unfold daysInMonth
  split_ifs <;> norm_num

theorem pyDate_valid (y m : ℤ) (hy1 : 1 ≤ y) (hy2 : y ≤ 9999) (hm1 : 1 ≤ m) (hm2 : m ≤ 12) :
    pyDate y m 1 = some ⟨y, m, 1⟩ := by
  unfold pyDate
  rw [if_pos ⟨hy1, hy2, hm1, hm2, le_refl 1, daysInMonth_ge_one y m⟩]

theorem foldl_twoDigits (m : ℕ) (h : m < 100) :
    (twoDigits m).foldl (fun a c => 10 * a + digitVal c) 0 = m := by
  have h1 : m / 10 < 10 := by omega
  have h2 : m % 10 < 10 := by omega
  simp only [twoDigits, List.foldl_cons, List.foldl_nil, digitVal_dchar _ h1,
    digitVal_dchar _ h2]
  omega

theorem foldl_fourDigits (y : ℕ) (h : y < 10000) :
    (fourDigits y).foldl (fun a c => 10 * a + digitVal c) 0 = y := by
  have h1 : y / 1000 < 10 := by omega
  have h2 : y / 100 % 10 < 10 := by omega
  have h3 : y / 10 % 10 < 10 := by omega
  have h4 : y % 10 < 10 := by omega
  simp only [fourDigits, List.foldl_cons, List.foldl_nil, digitVal_dchar _ h1,
    digitVal_dchar _ h2, digitVal_dchar _ h3, digitVal_dchar _ h4]
  omega

theorem twoDigits_all_digit (m : ℕ) (h : m < 100) :
    ∀ c ∈ twoDigits m, isDigitB c = true := by
  have h1 : m / 10 < 10 := by omega
  have h2 : m % 10 < 10 := by omega
  intro c hc
  simp only [twoDigits, List.mem_cons, List.not_mem_nil, or_false] at hc
  rcases hc with rfl | rfl
  · exact dchar_isDigitB _ h1
  · exact dchar_isDigitB _ h2

theorem fourDigits_all_digit (y : ℕ) (h : y < 10000) :
    ∀ c ∈ fourDigits y, isDigitB c = true := by
  have h1 : y / 1000 < 10 := by omega
  have h2 : y / 100 % 10 < 10 := by omega
  have h3 : y / 10 % 10 < 10 := by omega
  have h4 : y % 10 < 10 := by omega
  intro c hc
  simp only [fourDigits, List.mem_cons, List.not_mem_nil, or_false] at hc
  rcases hc with rfl | rfl | rfl | rfl
  · exact dchar_isDigitB _ h1
  · exact dchar_isDigitB _ h2
  · exact dchar_isDigitB _ h3
  · exact dchar_isDigitB _ h4

theorem slash_not_mem_twoDigits (m : ℕ) (h : m < 100) : '/' ∉ twoDigits m := by
  intro hc
  have := twoDigits_all_digit m h '/' hc
  simp [isDigitB] at this

theorem slash_not_mem_fourDigits (y : ℕ) (h : y < 10000) : '/' ∉ fourDigits y := by
  intro hc
  have := fourDigits_all_digit y h '/' hc
  simp [isDigitB] at this

/- ### Claim C2: the date parser -/

/-- Claim C2, counterexample: the text `1/2007` matches neither shape
`MM/YYYY` nor shape `YYYY`, yet `parse_first_brewed` returns the date
2007-01-01 instead of failing; moreover a shapeless text like `abc` fails
with a `ValueError` from `int()`, not with the format assertion. -/
theorem claim_C2_counterexample :
    parse_first_brewed (chars "1/2007") = .ok ⟨2007, 1, 1⟩
      ∧ isShapeMMYYYY (chars "1/2007") = false
      ∧ isShapeYYYY (chars "1/2007") = false
      ∧ parse_first_brewed (chars "abc") = .error .valueError :=
  ⟨rfl, rfl, rfl, rfl⟩

theorem isShape_two_four (m y : ℕ) (hm1 : 1 ≤ m) (hm2 : m ≤ 12) (hy1 : 1 ≤ y)
    (hy2 : y ≤ 9999) :
    isShapeMMYYYY (twoDigits m ++ '/' :: fourDigits y) = true := by
  show isShapeMMYYYY [dchar (m / 10), dchar (m % 10), '/', dchar (y / 1000),
    dchar (y / 100 % 10), dchar (y / 10 % 10), dchar (y % 10)] = true
  simp only [isShapeMMYYYY]
  simp only [dchar_isDigitB _ (show m / 10 < 10 by omega),
    dchar_isDigitB _ (show m % 10 < 10 by omega),
    dchar_isDigitB _ (show y / 1000 < 10 by omega),
    dchar_isDigitB _ (show y / 100 % 10 < 10 by omega),
    dchar_isDigitB _ (show y / 10 % 10 < 10 by omega),
    dchar_isDigitB _ (show y % 10 < 10 by omega),
    digitVal_dchar _ (show m / 10 < 10 by omega),
    digitVal_dchar _ (show m % 10 < 10 by omega),
    digitVal_dchar _ (show y / 1000 < 10 by omega),
    digitVal_dchar _ (show y / 100 % 10 < 10 by omega),
    digitVal_dchar _ (show y / 10 % 10 < 10 by omega),
    digitVal_dchar _ (show y % 10 < 10 by omega)]
  simp only [Bool.and_eq_true, decide_eq_true_eq, decide_eq_true_iff]
  simp
  omega

theorem isShape_four (y : ℕ) (hy1 : 1 ≤ y) (hy2 : y ≤ 9999) :
    isShapeYYYY (fourDigits y) = true := by
  show isShapeYYYY [dchar (y / 1000), dchar (y / 100 % 10), dchar (y / 10 % 10),
    dchar (y % 10)] = true
  simp only [isShapeYYYY]
  simp only [dchar_isDigitB _ (show y / 1000 < 10 by omega),
    dchar_isDigitB _ (show y / 100 % 10 < 10 by omega),
    dchar_isDigitB _ (show y / 10 % 10 < 10 by omega),
    dchar_isDigitB _ (show y % 10 < 10 by omega),
    digitVal_dchar _ (show y / 1000 < 10 by omega),
    digitVal_dchar _ (show y / 100 % 10 < 10 by omega),
    digitVal_dchar _ (show y / 10 % 10 < 10 by omega),
    digitVal_dchar _ (show y % 10 < 10 by omega)]
  simp only [Bool.and_eq_true, decide_eq_true_eq, decide_eq_true_iff]
  simp
  omega

theorem pyInt_twoDigits (m : ℕ) (h : m < 100) : pyInt (twoDigits m) = some (m : ℤ) := by
  rw [pyInt_digits (twoDigits m) (by simp [twoDigits]) (twoDigits_all_digit m h)]
  rw [foldl_twoDigits m h]

theorem pyInt_fourDigits (y : ℕ) (h : y < 10000) : pyInt (fourDigits y) = some (y : ℤ) := by
  rw [pyInt_digits (fourDigits y) (by simp [fourDigits]) (fourDigits_all_digit y h)]
  rw [foldl_fourDigits y h]

theorem parse_two_parts (s p0 p1 : PyStr) (y m : ℤ) (hs : splitOnChar '/' s = [p0, p1])
    (hy : pyInt p1 = some y) (hm : pyInt p0 = some m)
    (hd : pyDate y m 1 = some ⟨y, m, 1⟩) :
    parse_first_brewed s = .ok ⟨y, m, 1⟩ := by
  unfold parse_first_brewed
  rw [hs]
  simp only [hy, hm, hd]

theorem parse_one_part (s p0 : PyStr) (y : ℤ) (hs : splitOnChar '/' s = [p0])
    (hy : pyInt p0 = some y) (hd : pyDate y 1 1 = some ⟨y, 1, 1⟩) :
    parse_first_brewed s = .ok ⟨y, 1, 1⟩ := by
  unfold parse_first_brewed
  rw [hs]
  simp only [hy, hd]

/-- Claim C2, amended: texts rendering a month 1..12 as two digits and a
representable year as four digits parse to the first of that month, and
four-digit year texts parse to January 1 of that year (the confirmed part
of the claim); any text splitting into three or more slash-separated parts
fails with the format assertion.  The rejection half of the original claim
is false: the parser also accepts other shapes (see the counterexample). -/
theorem claim_C2_amended :
    (∀ m y : ℕ, 1 ≤ m → m ≤ 12 → 1 ≤ y → y ≤ 9999 →
        isShapeMMYYYY (twoDigits m ++ '/' :: fourDigits y) = true
          ∧ parse_first_brewed (twoDigits m ++ '/' :: fourDigits y)
              = .ok ⟨(y : ℤ), (m : ℤ), 1⟩)
    ∧ (∀ y : ℕ, 1 ≤ y → y ≤ 9999 →
        isShapeYYYY (fourDigits y) = true
          ∧ parse_first_brewed (fourDigits y) = .ok ⟨(y : ℤ), 1, 1⟩)
    ∧ (∀ s : PyStr, 3 ≤ (splitOnChar '/' s).length →
        parse_first_brewed s = .error .assertionError) := by
  refine ⟨fun m y hm1 hm2 hy1 hy2 => ⟨isShape_two_four m y hm1 hm2 hy1 hy2, ?_⟩,
    fun y hy1 hy2 => ⟨isShape_four y hy1 hy2, ?_⟩, fun s hs => ?_⟩
  · have hsplit : splitOnChar '/' (twoDigits m ++ '/' :: fourDigits y)
        = [twoDigits m, fourDigits y] := by
      rw [splitOnChar_append '/' _ _ (slash_not_mem_twoDigits m (by omega))]
      rw [splitOnChar_not_mem '/' _ (slash_not_mem_fourDigits y (by omega))]
    exact parse_two_parts _ _ _ _ _ hsplit (pyInt_fourDigits y (by omega))
      (pyInt_twoDigits m (by omega))
      (pyDate_valid _ _ (by exact_mod_cast hy1) (by exact_mod_cast hy2)
        (by exact_mod_cast hm1) (by exact_mod_cast hm2))
  · have hsplit : splitOnChar '/' (fourDigits y) = [fourDigits y] :=
      splitOnChar_not_mem '/' _ (slash_not_mem_fourDigits y (by omega))
    exact parse_one_part _ _ _ hsplit (pyInt_fourDigits y (by omega))
      (pyDate_valid _ _ (by exact_mod_cast hy1) (by exact_mod_cast hy2)
        (by norm_num) (by norm_num))
  · rcases hsp : splitOnChar '/' s with _ | ⟨a, _ | ⟨b, _ | ⟨c, t⟩⟩⟩
    · rw [hsp] at hs; simp at hs
    · rw [hsp] at hs; simp at hs
    · rw [hsp] at hs; simp at hs
    · unfold parse_first_brewed
      rw [hsp]

/-- Claim C2, witness: concrete instances of the amended theorem at
`09/2007`, `2006` and the three-part text `a/b/c`. -/
theorem claim_C2_witness :
    parse_first_brewed (twoDigits 9 ++ '/' :: fourDigits 2007) = .ok ⟨2007, 9, 1⟩
      ∧ parse_first_brewed (fourDigits 2006) = .ok ⟨2006, 1, 1⟩
      ∧ parse_first_brewed (chars "a/b/c") = .error .assertionError := by
  refine ⟨(claim_C2_amended.1 9 2007 (by norm_num) (by norm_num) (by norm_num)
      (by norm_num)).2,
    (claim_C2_amended.2.1 2006 (by norm_num) (by norm_num)).2,
    claim_C2_amended.2.2 (chars "a/b/c") (by decide)⟩

/- ### Claim C3: round-trip of the bulk-text serialization -/

theorem unescapeField_clean (f : Option PyStr)
    (h : ∀ v, f = some v → '\\' ∉ v) :
    unescapeField (clean_csv_value f) = f := by
  cases f with
  | none => rfl
  | some v =>
    have hv : '\\' ∉ v := h v rfl
    unfold unescapeField clean_csv_value
    rw [if_neg (escape_ne_nullSentinel v hv), unescape_escape v hv]

theorem newline_not_mem_serializeRecordLine (fields : List (Option PyStr)) :
    '\n' ∉ serializeRecordLine fields := by
  unfold serializeRecordLine
  apply not_mem_intercalateChar _ _ _ (by decide)
  intro p hp
  rcases List.mem_map.mp hp with ⟨f, _, rfl⟩
  exact newline_not_mem_clean f

theorem splitLines (lines : List PyStr) (h : ∀ l ∈ lines, '\n' ∉ l) :
    splitOnChar '\n' (concatAll (lines.map (fun l => l ++ ['\n']))) = lines ++ [[]] := by
  induction lines with
  | nil => rfl
  | cons l ls ih =>
    simp only [List.map_cons, concatAll, List.append_assoc, List.singleton_append]
    rw [splitOnChar_append '\n' l _ (h l (List.mem_cons_self l ls))]
    rw [ih (fun x hx => h x (List.mem_cons_of_mem l hx))]
    rfl

theorem parseBackLine_serialize (fields : List (Option PyStr)) (hne : fields ≠ [])
    (hf : ∀ f ∈ fields, ∀ v, f = some v → '|' ∉ v ∧ '\\' ∉ v) :
    parseBackLine (serializeRecordLine fields) = fields := by
  unfold parseBackLine serializeRecordLine
  have hparts : ∀ p ∈ fields.map clean_csv_value, '|' ∉ p := by
    intro p hp
    rcases List.mem_map.mp hp with ⟨f, hfm, rfl⟩
    cases f with
    | none => decide
    | some v =>
      have hv : '|' ∉ v := (hf _ hfm v rfl).1
      have h0 : (escapeNewlines v).count '|' = 0 := by
        rw [count_escape_pipe v, List.count_eq_zero.mpr hv]
      show '|' ∉ escapeNewlines v
      exact List.count_eq_zero.mp h0
  rw [splitOnChar_intercalate '|' _ (by simpa using hne) hparts]
  rw [List.map_map]
  apply list_map_self
  intro f hfm
  exact unescapeField_clean f (fun v hv => (hf f hfm v hv).2)

/-- Claim C3, counterexample: a 17-field record whose last field value is
the literal two-character string backslash `N` serializes to the NULL
sentinel, so parsing the batch back turns that value into a NULL — the
round-trip does not reproduce every batch exactly. -/
theorem claim_C3_counterexample :
    parseBack (serializeBatch cxBatch) ≠ cxBatch
      ∧ parseBack (serializeBatch cxBatch)
          = [List.replicate 16 (some ['a']) ++ [none]] := by
  constructor
  · decide
  · decide

/-- Claim C3, amended: for every batch of nonempty records whose string
field values contain neither the pipe delimiter nor a backslash (NULLs and
embedded newlines are allowed and exercised), serializing to the bulk-text
format and parsing back reproduces the batch exactly.  Values containing a
backslash (for example a literal backslash-N) or the delimiter break the
round-trip, as the counterexample shows. -/
theorem claim_C3_roundtrip (batch : List (List (Option PyStr)))
    (hb : ∀ r ∈ batch, r ≠ [] ∧ ∀ f ∈ r, ∀ v, f = some v → '|' ∉ v ∧ '\\' ∉ v) :
    parseBack (serializeBatch batch) = batch := by
  unfold parseBack serializeBatch
  have hmap : batch.map serializeRecord
      = (batch.map serializeRecordLine).map (fun l => l ++ ['\n']) := by
    rw [List.map_map]
    rfl
  rw [hmap]
  rw [splitLines _ (by
    intro l hl
    rcases List.mem_map.mp hl with ⟨r, _, rfl⟩
    exact newline_not_mem_serializeRecordLine r)]
  rw [List.dropLast_concat]
  rw [List.map_map]
  apply list_map_self
  intro r hr
  exact parseBackLine_serialize r (hb r hr).1 (fun f hf v hv => (hb r hr).2 f hf v hv)

/-- Claim C3, witness: the round-trip at a concrete batch containing NULLs,
an empty string and embedded newlines. -/
theorem claim_C3_witness : parseBack (serializeBatch exBatch) = exBatch :=
  claim_C3_roundtrip exBatch (by decide)

/- ### Claim C9: the serializer does not escape the delimiter -/

theorem serializeRecordLine_split_length (fields : List (Option PyStr)) (hne : fields ≠ []) :
    (splitOnChar '|' (serializeRecordLine fields)).length
      = fields.length + (fields.map (fun f => (clean_csv_value f).count '|')).sum := by
  unfold serializeRecordLine
  rw [splitOnChar_length]
  rw [count_intercalateChar '|' _ (by simpa using hne)]
  simp only [List.map_map, List.length_map, Function.comp_def]
  have h1 : 1 ≤ fields.length := List.length_pos.mpr hne
  omega

/-- Claim C9: `clean_csv_value` escapes only newlines and NULL — a value
without newlines (pipes and backslashes included) passes through
unchanged, and the pipe count of a value is preserved — so a 17-field line
splits on the delimiter into exactly 17 parts when the values are
pipe-free, and into strictly more than 17 parts as soon as one string
value contains the delimiter. -/
theorem claim_C9 :
    (∀ v : PyStr, '\n' ∉ v → clean_csv_value (some v) = v)
    ∧ (∀ v : PyStr, (clean_csv_value (some v)).count '|' = v.count '|')
    ∧ (∀ fields : List (Option PyStr), fields.length = 17 →
        (∀ f ∈ fields, ∀ v, f = some v → '|' ∉ v) →
        (splitOnChar '|' (serializeRecordLine fields)).length = 17)
    ∧ (∀ fields : List (Option PyStr), fields.length = 17 →
        (∃ f ∈ fields, ∃ v, f = some v ∧ '|' ∈ v) →
        17 < (splitOnChar '|' (serializeRecordLine fields)).length) := by
  refine ⟨fun v hv => escape_eq_self v hv, fun v => count_escape_pipe v, ?_, ?_⟩
  · intro fields hlen hfree
    rw [serializeRecordLine_split_length fields (by rintro rfl; simp at hlen)]
    have hsum : (fields.map (fun f => (clean_csv_value f).count '|')).sum = 0 := by
      apply List.sum_eq_zero
      intro x hx
      rcases List.mem_map.mp hx with ⟨f, hfm, rfl⟩
      cases f with
      | none => rfl
      | some v =>
        show (escapeNewlines v).count '|' = 0
        rw [count_escape_pipe v]
        exact List.count_eq_zero.mpr (hfree _ hfm v rfl)
    rw [hsum, hlen]
  · intro fields hlen hex
    rcases hex with ⟨f, hfm, v, rfl, hpv⟩
    rw [serializeRecordLine_split_length fields (by rintro rfl; simp at hlen)]
    have hmem : (clean_csv_value (some v)).count '|'
        ∈ fields.map (fun f => (clean_csv_value f).count '|') :=
      List.mem_map_of_mem _ hfm
    have hone : 1 ≤ (clean_csv_value (some v)).count '|' := by
      show 1 ≤ (escapeNewlines v).count '|'
      rw [count_escape_pipe v]
      exact List.count_pos_iff.mpr hpv
    have hle := List.single_le_sum (fun (x : ℕ) _ => Nat.zero_le x) _ hmem
    omega

/-- Claim C9, witness: a concrete 17-field record with a pipe inside one
value splits into more than 17 parts, and a pipe-free one into exactly 17. -/
theorem claim_C9_witness :
    17 < (splitOnChar '|' (serializeRecordLine cxPipeFields)).length
      ∧ (splitOnChar '|' (serializeRecordLine (List.replicate 17 (some ['a'])))).length
          = 17 := by
  constructor
  · exact claim_C9.2.2.2 cxPipeFields (by decide)
      ⟨some ['b', '|', 'c'], by decide, ['b', '|', 'c'], rfl, by decide⟩
  · exact claim_C9.2.2.1 (List.replicate 17 (some ['a'])) (by decide) (by decide)

/- ### Claim C1: column order of the loaders versus the declared schema -/

/-- Claim C1: the declared table and every loader use 17 fields, and the
INSERT variants and `copy_string_iterator` follow the declared column
order, but `copy_stringio` swaps `brewers_tips` and `contributed_by`: it
writes `contributed_by` as its 15th field where the table declares
`brewers_tips`, so at a record with distinct values those two text columns
receive each other's data — the claimed order match fails for
`copy_stringio`. -/
theorem claim_C1_copy_stringio_column_order :
    stagingBeersColumns.length = 17
      ∧ insertSqlParamOrder.length = 17
      ∧ copyStringioKeyOrder.length = 17
      ∧ copyStringIteratorKeyOrder.length = 17
      ∧ stagingBeersColumns[14]? = some "brewers_tips"
      ∧ stagingBeersColumns[15]? = some "contributed_by"
      ∧ copyStringioKeyOrder[14]? = some "contributed_by"
      ∧ copyStringioKeyOrder[15]? = some "brewers_tips"
      ∧ insertSqlParamOrder[14]? = some "brewers_tips"
      ∧ copyStringIteratorKeyOrder[14]? = some "brewers_tips"
      ∧ (copyStringioTuple sampleBeer sampleDate).length = 17
      ∧ (copyStringioTuple sampleBeer sampleDate)[14]? = some sampleBeer.contributed_by
      ∧ (schemaOrderedTuple sampleBeer sampleDate)[14]? = some sampleBeer.brewers_tips
      ∧ sampleBeer.contributed_by ≠ sampleBeer.brewers_tips
      ∧ copyStringioTuple sampleBeer sampleDate ≠ schemaOrderedTuple sampleBeer sampleDate := by
  refine ⟨rfl, rfl, rfl, rfl, rfl, rfl, rfl, rfl, rfl, rfl, rfl, rfl, rfl, ?_, ?_⟩
  · decide
  · decide

/- ### Claim C6: the profiling harness runs the callable exactly twice -/

/-- Claim C6: one benchmark entry runs the wrapped callable exactly twice
and strictly sequentially — the final world is the callable applied twice
in sequence — the caller receives the callable's return value, the
reported elapsed time brackets the first execution, and the reported
memory samples are taken across the second execution; on a counting world
the counter ends at exactly two. -/
theorem claim_C6 :
    ∀ (W R : Type) (fn : W → W × R) (clock : W → ℚ) (samp : W → W → List ℚ) (w : W),
      (profile fn clock samp w).1.1 = (fn (fn w).1).1
      ∧ (profile fn clock samp w).1.2 = (fn (fn w).1).2
      ∧ (profile fn clock samp w).2.elapsed = clock (fn w).1 - clock w
      ∧ (profile fn clock samp w).2.memSamples = samp (fn w).1 (fn (fn w).1).1
      ∧ (∀ n : ℕ,
          (profile (fun k : ℕ => (k + 1, ())) (fun _ => 0) (fun _ _ => []) n).1.1 = n + 2) :=
  fun _ _ _ _ _ _ => ⟨rfl, rfl, rfl, rfl, fun _ => rfl⟩

/- ### Claim C7: the paginated record source -/

theorem iterBeersAux_eq (server : ℕ → List α) (stop : ℕ) (hempty : server stop = [])
    (hne : ∀ p, 1 ≤ p → p < stop → server p ≠ []) :
    ∀ fuel page, 1 ≤ page → page ≤ stop → stop ≤ page + fuel →
      iterBeersAux server page fuel = pagesConcat server page (stop - page) := by
  intro fuel
  induction fuel with
  | zero =>
    intro page h1 h2 h3
    have hps : page = stop := by omega
    subst hps
    simp [iterBeersAux, pagesConcat, concatAll]
  | succ fuel ih =>
    intro page h1 h2 h3
    by_cases hps : page = stop
    · subst hps
      simp only [iterBeersAux, hempty]
      simp [pagesConcat, concatAll]
    · have hlt : page < stop := by omega
      cases hd : server page with
      | nil => exact absurd hd (hne page h1 hlt)
      | cons d ds =>
        simp only [iterBeersAux, hd]
        rw [ih (page + 1) (by omega) (by omega) (by omega)]
        rw [show stop - page = (stop - (page + 1)) + 1 by omega]
        unfold pagesConcat
        rw [List.range'_succ]
        simp [concatAll, hd]

/-- Claim C7: for every modelled server response function with a first
empty page `stop` (pages 1 until just before `stop` nonempty), the record
source yields exactly the concatenation of pages 1..stop-1 in order, for
any sufficient page bound. -/
theorem claim_C7 {α : Type} (server : ℕ → List α) (stop fuel : ℕ) (h1 : 1 ≤ stop)
    (hempty : server stop = []) (hne : ∀ p, 1 ≤ p → p < stop → server p ≠ [])
    (hfuel : stop ≤ fuel) :
    iter_beers_from_api server fuel = pagesConcat server 1 (stop - 1) := by
  unfold iter_beers_from_api
  exact iterBeersAux_eq server stop hempty hne fuel 1 (le_refl 1) h1 (by omega)

/-- Claim C7, witness: the concrete server with two nonempty pages. -/
theorem claim_C7_witness : iter_beers_from_api exServer 5 = pagesConcat exServer 1 2 :=
  claim_C7 exServer 3 5 (by norm_num) (by decide)
    (by intro p hp1 hp2; interval_cases p <;> decide) (by norm_num)

/- ### Claim C8: idempotence of every loader run -/

/-- Claim C8: every modelled loader strategy starts by dropping and
recreating the destination table, so running a strategy twice on the same
input leaves exactly the table contents of running it once. -/
theorem claim_C8 :
    ∀ (beers : List Beer) (db : DB) (ps sz : ℕ),
      insert_one_by_one beers (insert_one_by_one beers db) = insert_one_by_one beers db
      ∧ insert_executemany beers (insert_executemany beers db) = insert_executemany beers db
      ∧ insert_execute_values_iterator_def2 beers ps
          (insert_execute_values_iterator_def2 beers ps db)
          = insert_execute_values_iterator_def2 beers ps db
      ∧ copy_stringio beers (copy_stringio beers db) = copy_stringio beers db
      ∧ copy_string_iterator beers sz (copy_string_iterator beers sz db)
          = copy_string_iterator beers sz db :=
  fun _ _ _ _ => ⟨rfl, rfl, rfl, rfl, rfl⟩

/- ### Claim C10: the shadowed duplicate definition -/

theorem flatten_chunkPagesAux {α : Type} :
    ∀ fuel ps (rows : List α), rows.length ≤ fuel →
      concatAll (chunkPagesAux fuel ps rows) = rows := by
  intro fuel
  induction fuel with
  | zero =>
    intro ps rows h
    have : rows = [] := List.length_eq_zero.mp (Nat.le_zero.mp h)
    subst this
    rfl
  | succ fuel ih =>
    intro ps rows h
    cases rows with
    | nil => rfl
    | cons r rs =>
      simp only [chunkPagesAux, concatAll]
      rw [ih ps (rs.drop (ps - 1)) (by
        simp only [List.length_drop]
        simp only [List.length_cons] at h
        omega)]
      simp [List.take_append_drop]

theorem flatten_chunkPages {α : Type} (ps : ℕ) (rows : List α) :
    concatAll (chunkPages ps rows) = rows :=
  flatten_chunkPagesAux rows.length ps rows (le_refl _)

/-- Claim C10: `insert_execute_values_iterator` is defined twice in the
module and name resolution sees only the second (paged) definition, which
starts at line 340; still, for every record sequence that normalizes
successfully and every positive page size, the two definitions leave
identical destination-table contents, because paging only re-chunks the
same row sequence. -/
theorem claim_C10 :
    pyResolve "insert_execute_values_iterator" = some 340
    ∧ (moduleDefs.filter (fun d => d.1 = "insert_execute_values_iterator")).length = 2
    ∧ ∀ (beers : List Beer) (ps : ℕ) (db : DB) (rows : List Row),
        1 ≤ ps → normalizeAll beers = .ok rows →
        insert_execute_values_iterator_def2 beers ps db
          = insert_execute_values_iterator_def1 beers db := by
  refine ⟨by decide, by decide, ?_⟩
  intro beers ps db rows hps hnorm
  unfold insert_execute_values_iterator_def2 insert_execute_values_iterator_def1
  rw [hnorm]
  show create_staging_table db ++ concatAll (chunkPages ps rows)
      = create_staging_table db ++ concatAll (chunkPages 100 rows)
  rw [flatten_chunkPages, flatten_chunkPages]

/-- Claim C10, witness: the two definitions agree at a concrete two-record
input with page size 1 (versus the first definition's page size 100). -/
theorem claim_C10_witness :
    insert_execute_values_iterator_def2 [sampleBeer, sampleBeer] 1 []
      = insert_execute_values_iterator_def1 [sampleBeer, sampleBeer] [] :=
  claim_C10.2.2 [sampleBeer, sampleBeer] 1 []
    [schemaOrderedTuple sampleBeer sampleDate, schemaOrderedTuple sampleBeer sampleDate]
    (by norm_num) (by rfl)

/- ### Claims C4 and C5: the pull-based text adapter -/

namespace StringIterator

theorem refill_concat (b : PyStr) (rest : List PyStr) :
    (refill b rest).1 ++ concatAll (refill b rest).2 = b ++ concatAll rest := by
  induction rest generalizing b with
  | nil => rfl
  | cons l ls ih =>
    by_cases hb : b = []
    · subst hb
      rw [show refill ([] : PyStr) (l :: ls) = refill l ls from rfl, ih l]
      simp [concatAll]
    · simp [refill, hb]

theorem refill_fst_nil (b : PyStr) (rest : List PyStr)
    (h : (refill b rest).1 = []) : b ++ concatAll rest = [] := by
  induction rest generalizing b with
  | nil =>
    have hb : b = [] := h
    subst hb
    rfl
  | cons l ls ih =>
    by_cases hb : b = []
    · subst hb
      rw [show refill ([] : PyStr) (l :: ls) = refill l ls from rfl] at h
      simp only [List.nil_append, concatAll]
      exact ih l h
    · have hr : refill b (l :: ls) = (b, l :: ls) := by simp [refill, hb]
      rw [hr] at h
      exact absurd h hb

theorem pySliceTo_take (n : Option ℤ) (l : PyStr) : ∃ m, pySliceTo n l = l.take m := by
  cases n with
  | none => exact ⟨l.length, (List.take_length l).symm⟩
  | some k =>
    by_cases hk : 0 ≤ k
    · exact ⟨k.toNat, by simp [pySliceTo, hk]⟩
    · exact ⟨l.length - (-k).toNat, by simp [pySliceTo, hk]⟩

theorem pySliceTo_nil (n : Option ℤ) : pySliceTo n [] = [] := by
  cases n with
  | none => rfl
  | some k =>
    by_cases hk : 0 ≤ k <;> simp [pySliceTo, hk]

theorem take_drop_len (l : List Char) (m : ℕ) :
    l.take m ++ l.drop (l.take m).length = l := by
  rcases le_total m l.length with h | h
  · rw [List.length_take, Nat.min_eq_left h, List.take_append_drop]
  · rw [List.take_of_length_le h, List.drop_length, List.append_nil]

theorem read1_split (n : Option ℤ) (s : StringIterator) :
    (read1 n s).1 ++ remaining (read1 n s).2 = remaining s := by
  obtain ⟨m, hm⟩ := pySliceTo_take n (refill s.buff s.rest).1
  simp only [read1, remaining]
  rw [hm, ← List.append_assoc, take_drop_len]
  exact refill_concat s.buff s.rest

theorem read1_len_pos (k : ℤ) (hk : 0 ≤ k) (s : StringIterator) :
    (read1 (some k) s).1.length = min k.toNat (refill s.buff s.rest).1.length := by
  simp [read1, pySliceTo, hk, List.length_take]

theorem refill_len_le (s : StringIterator) :
    (refill s.buff s.rest).1.length ≤ (remaining s).length := by
  have h := refill_concat s.buff s.rest
  have : ((refill s.buff s.rest).1 ++ concatAll (refill s.buff s.rest).2).length
      = (remaining s).length := by rw [h]; rfl
  simp only [List.length_append] at this
  omega

theorem read1_empty_iff (n : Option ℤ)
    (hn : n = none ∨ ∃ k, n = some k ∧ 1 ≤ k) (s : StringIterator) :
    ((read1 n s).1 = [] ↔ remaining s = []) := by
  constructor
  · intro h
    rcases hn with rfl | ⟨k, rfl, hk⟩
    · have hp1 : (refill s.buff s.rest).1 = [] := by
        simpa [read1, pySliceTo] using h
      exact refill_fst_nil s.buff s.rest hp1
    · have hp1 : (refill s.buff s.rest).1.take k.toNat = [] := by
        simpa [read1, pySliceTo, show (0 : ℤ) ≤ k by omega] using h
      rcases List.take_eq_nil_iff.mp hp1 with h0 | h0
      · exact absurd h0 (by omega)
      · exact refill_fst_nil s.buff s.rest h0
  · intro h
    have hr := refill_concat s.buff s.rest
    rw [show s.buff ++ concatAll s.rest = remaining s from rfl, h] at hr
    have hp1 : (refill s.buff s.rest).1 = [] := List.append_eq_nil.mp hr |>.1
    simp [read1, hp1, pySliceTo_nil]

theorem readNegAux_succ (fuel : ℕ) (n : Option ℤ) (s : StringIterator) :
    readNegAux (fuel + 1) n s
      = (if (read1 n s).1 = [] then (([] : PyStr), (read1 n s).2)
         else ((read1 n s).1 ++ (readNegAux fuel n (read1 n s).2).1,
               (readNegAux fuel n (read1 n s).2).2)) := rfl

theorem readPosAux_succ (fuel : ℕ) (k : ℤ) (s : StringIterator) :
    readPosAux (fuel + 1) k s
      = (if k ≤ 0 then (([] : PyStr), s)
         else if (read1 (some k) s).1 = [] then (([] : PyStr), (read1 (some k) s).2)
         else ((read1 (some k) s).1
                ++ (readPosAux fuel (k - (read1 (some k) s).1.length)
                      (read1 (some k) s).2).1,
               (readPosAux fuel (k - (read1 (some k) s).1.length)
                      (read1 (some k) s).2).2)) := rfl

theorem readPosAux_split : ∀ (fuel : ℕ) (k : ℤ) (s : StringIterator),
    (readPosAux fuel k s).1 ++ remaining (readPosAux fuel k s).2 = remaining s := by
  intro fuel
  induction fuel with
  | zero => intro k s; rfl
  | succ fuel ih =>
    intro k s
    rw [readPosAux_succ]
    by_cases hk : k ≤ 0
    · simp [hk]
    · rw [if_neg hk]
      by_cases hr : (read1 (some k) s).1 = []
      · have := read1_split (some k) s
        rw [hr] at this
        simpa [hr] using this
      · rw [if_neg hr]
        show (read1 (some k) s).1 ++ _ ++ remaining _ = remaining s
        rw [List.append_assoc, ih]
        exact read1_split (some k) s

theorem readPosAux_len : ∀ (fuel : ℕ) (k : ℤ) (s : StringIterator), k.toNat ≤ fuel →
    (readPosAux fuel k s).1.length = min k.toNat (remaining s).length := by
  intro fuel
  induction fuel with
  | zero =>
    intro k s h
    have : k.toNat = 0 := by omega
    simp [readPosAux, this]
  | succ fuel ih =>
    intro k s h
    rw [readPosAux_succ]
    by_cases hk : k ≤ 0
    · have : k.toNat = 0 := by omega
      simp [hk, this]
    · rw [if_neg hk]
      by_cases hr : (read1 (some k) s).1 = []
      · have hrem : remaining s = [] :=
          (read1_empty_iff (some k) (Or.inr ⟨k, rfl, by omega⟩) s).mp hr
        simp [hr, hrem]
      · rw [if_neg hr]
        have ha : 1 ≤ (read1 (some k) s).1.length := List.length_pos.mpr hr
        have hsplit := read1_split (some k) s
        have hlens : (read1 (some k) s).1.length + (remaining (read1 (some k) s).2).length
            = (remaining s).length := by
          rw [← hsplit, List.length_append]
        have hlen1 := read1_len_pos k (by omega) s
        have hple := refill_len_le s
        have hk2 : (k - (read1 (some k) s).1.length).toNat ≤ fuel := by omega
        have hrec := ih (k - (read1 (some k) s).1.length) (read1 (some k) s).2 hk2
        simp only [List.length_append, hrec]
        omega

theorem read_nonneg_eq (k : ℤ) (hk : 0 ≤ k) (s : StringIterator) :
    read (some k) s = readPosAux k.toNat k s := by
  simp only [read]
  rw [if_neg (by omega)]

end StringIterator

theorem readChunks_join : ∀ (sizes : List ℕ) (s : StringIterator),
    (∀ k ∈ sizes, 1 ≤ k) → (StringIterator.remaining s).length ≤ sizes.sum →
    concatAll (readChunks sizes s).1 = StringIterator.remaining s := by
  intro sizes
  induction sizes with
  | nil =>
    intro s _ hl
    simp only [readChunks, concatAll]
    exact (List.length_eq_zero.mp (Nat.le_zero.mp hl)).symm
  | cons k ks ih =>
    intro s hall hsum
    simp only [readChunks, concatAll]
    rw [StringIterator.read_nonneg_eq (k : ℤ) (by omega) s]
    have hK : ((k : ℤ)).toNat = k := Int.toNat_ofNat k
    have hsplit := StringIterator.readPosAux_split ((k : ℤ)).toNat (k : ℤ) s
    have hlen := StringIterator.readPosAux_len ((k : ℤ)).toNat (k : ℤ) s (le_refl _)
    have hlens : (StringIterator.readPosAux ((k : ℤ)).toNat (k : ℤ) s).1.length
        + (StringIterator.remaining
            (StringIterator.readPosAux ((k : ℤ)).toNat (k : ℤ) s).2).length
        = (StringIterator.remaining s).length := by
      rw [← hsplit, List.length_append]
    have hsum2 : (StringIterator.remaining
        (StringIterator.readPosAux ((k : ℤ)).toNat (k : ℤ) s).2).length ≤ ks.sum := by
      simp only [List.sum_cons] at hsum
      omega
    rw [ih _ (fun x hx => hall x (List.mem_cons_of_mem k hx)) hsum2]
    exact hsplit

/-- Claim C4: for every finite sequence of lines and every schedule of
positive read sizes whose total covers the text, repeatedly reading with
that schedule and concatenating the returned chunks reassembles exactly
the eager concatenation of all lines. -/
theorem claim_C4 (lines : List PyStr) (sizes : List ℕ) (hpos : ∀ k ∈ sizes, 1 ≤ k)
    (hsum : (concatAll lines).length ≤ sizes.sum) :
    concatAll (readChunks sizes (ofLines lines)).1 = concatAll lines := by
  have h := readChunks_join sizes (ofLines lines) hpos
    (by simpa [StringIterator.remaining, ofLines] using hsum)
  simpa [StringIterator.remaining, ofLines] using h

/-- Claim C4, witness: the schedule 1, 7 over the lines `abc`, `d`,
exercising a final partial read. -/
theorem claim_C4_witness :
    concatAll (readChunks [1, 7] (ofLines [['a', 'b', 'c'], ['d']])).1
      = concatAll [['a', 'b', 'c'], ['d']] :=
  claim_C4 [['a', 'b', 'c'], ['d']] [1, 7] (by decide) (by decide)

namespace StringIterator

theorem readNegAux_fuel : ∀ (fuel1 fuel2 : ℕ) (n : Option ℤ) (s : StringIterator),
    (remaining s).length < fuel1 → (remaining s).length < fuel2 →
    readNegAux fuel1 n s = readNegAux fuel2 n s := by
  intro fuel1
  induction fuel1 with
  | zero => intro fuel2 n s h1 _; exact absurd h1 (Nat.not_lt_zero _)
  | succ f ih =>
    intro fuel2 n s h1 h2
    cases fuel2 with
    | zero => exact absurd h2 (Nat.not_lt_zero _)
    | succ g =>
      rw [readNegAux_succ, readNegAux_succ]
      by_cases hr : (read1 n s).1 = []
      · simp [hr]
      · rw [if_neg hr, if_neg hr]
        have ha : 1 ≤ (read1 n s).1.length := List.length_pos.mpr hr
        have hsplit := read1_split n s
        have hlens : (read1 n s).1.length + (remaining (read1 n s).2).length
            = (remaining s).length := by rw [← hsplit, List.length_append]
        have hrec := ih g n (read1 n s).2 (by omega) (by omega)
        rw [hrec]

theorem readPosAux_fuel : ∀ (fuel1 fuel2 : ℕ) (k : ℤ) (s : StringIterator),
    k.toNat ≤ fuel1 → k.toNat ≤ fuel2 →
    readPosAux fuel1 k s = readPosAux fuel2 k s := by
  intro fuel1
  induction fuel1 with
  | zero =>
    intro fuel2 k s h1 _
    have hk : k ≤ 0 := by omega
    cases fuel2 with
    | zero => rfl
    | succ g =>
      rw [readPosAux_succ, if_pos hk]
      rfl
  | succ f ih =>
    intro fuel2 k s h1 h2
    cases fuel2 with
    | zero =>
      have hk : k ≤ 0 := by omega
      rw [readPosAux_succ, if_pos hk]
      rfl
    | succ g =>
      rw [readPosAux_succ, readPosAux_succ]
      by_cases hk : k ≤ 0
      · simp [hk]
      · rw [if_neg hk, if_neg hk]
        by_cases hr : (read1 (some k) s).1 = []
        · simp [hr]
        · rw [if_neg hr, if_neg hr]
          have ha : 1 ≤ (read1 (some k) s).1.length := List.length_pos.mpr hr
          have hrec := ih g (k - (read1 (some k) s).1.length) (read1 (some k) s).2
            (by omega) (by omega)
          rw [hrec]

end StringIterator

/-- Claim C5, counterexample: `read` called with the requested size 0
returns the empty string even though unread text remains, refuting
"it never returns empty while unread buffered or underlying text
remains" for arbitrary requested sizes. -/
theorem claim_C5_counterexample :
    (StringIterator.read (some 0) (ofLines [['a', 'b', 'c']])).1 = []
      ∧ StringIterator.remaining (ofLines [['a', 'b', 'c']]) ≠ [] := by
  exact ⟨rfl, by decide⟩

/-- Claim C5, amended: for a requested size of `None` or any positive `n`,
`read` returns the empty string exactly when the buffer and the underlying
sequence are exhausted (so it returns empty to signal exhaustion and never
while unread text remains); both internal loops are well-founded — their
results do not change when the iteration bound grows beyond the provably
sufficient one.  For the requested size 0 (excluded here), `read` returns
empty even though text remains, as the counterexample shows. -/
theorem claim_C5_read_empty_iff_exhausted :
    (∀ (s : StringIterator) (n : Option ℤ),
        (n = none ∨ ∃ k, n = some k ∧ 1 ≤ k) →
        ((StringIterator.read n s).1 = [] ↔ StringIterator.remaining s = []))
    ∧ (∀ (fuel : ℕ) (n : Option ℤ) (s : StringIterator),
        (StringIterator.remaining s).length < fuel →
        StringIterator.readNegAux fuel n s
          = StringIterator.readNegAux ((StringIterator.remaining s).length + 1) n s)
    ∧ (∀ (fuel : ℕ) (k : ℤ) (s : StringIterator), k.toNat ≤ fuel →
        StringIterator.readPosAux fuel k s
          = StringIterator.readPosAux k.toNat k s) := by
  refine ⟨?_, ?_, ?_⟩
  · intro s n hn
    rcases hn with rfl | ⟨k, rfl, hk⟩
    · show ((StringIterator.readNegAux ((StringIterator.remaining s).length + 1) none s).1
          = [] ↔ _)
      rw [StringIterator.readNegAux_succ]
      by_cases hr : (StringIterator.read1 none s).1 = []
      · have hrem := (StringIterator.read1_empty_iff none (Or.inl rfl) s).mp hr
        simp [hr, hrem]
      · have hrem : ¬(StringIterator.remaining s = []) := fun hh =>
          hr ((StringIterator.read1_empty_iff none (Or.inl rfl) s).mpr hh)
        simp only [if_neg hr]
        constructor
        · intro hh
          exact absurd (List.append_eq_nil.mp hh).1 hr
        · intro hh
          exact absurd hh hrem
    · rw [StringIterator.read_nonneg_eq k (by omega) s]
      obtain ⟨m, hm⟩ : ∃ m, k.toNat = m + 1 := ⟨k.toNat - 1, by omega⟩
      rw [hm, StringIterator.readPosAux_succ, if_neg (by omega : ¬k ≤ 0)]
      by_cases hr : (StringIterator.read1 (some k) s).1 = []
      · have hrem := (StringIterator.read1_empty_iff (some k)
          (Or.inr ⟨k, rfl, hk⟩) s).mp hr
        simp [hr, hrem]
      · have hrem : ¬(StringIterator.remaining s = []) := fun hh =>
          hr ((StringIterator.read1_empty_iff (some k) (Or.inr ⟨k, rfl, hk⟩) s).mpr hh)
        simp only [if_neg hr]
        constructor
        · intro hh
          exact absurd (List.append_eq_nil.mp hh).1 hr
        · intro hh
          exact absurd hh hrem
  · intro fuel n s h
    exact StringIterator.readNegAux_fuel fuel _ n s h (Nat.lt_succ_self _)
  · intro fuel k s h
    exact StringIterator.readPosAux_fuel fuel k.toNat k s h (le_refl _)

/-- Claim C5, witness: the amended theorem applied at a concrete state with
size 1, and the loop bounds relaxed at concrete states. -/
theorem claim_C5_witness :
    ((StringIterator.read (some 1) (ofLines [['h', 'i']])).1 = []
        ↔ StringIterator.remaining (ofLines [['h', 'i']]) = [])
      ∧ StringIterator.readNegAux 7 none (ofLines [['h', 'i']])
          = StringIterator.readNegAux 3 none (ofLines [['h', 'i']])
      ∧ StringIterator.readPosAux 9 2 (ofLines [['h', 'i']])
          = StringIterator.readPosAux 2 2 (ofLines [['h', 'i']]) :=
  ⟨claim_C5_read_empty_iff_exhausted.1 (ofLines [['h', 'i']]) (some 1)
      (Or.inr ⟨1, rfl, by norm_num⟩),
    claim_C5_read_empty_iff_exhausted.2.1 7 none (ofLines [['h', 'i']]) (by decide),
    claim_C5_read_empty_iff_exhausted.2.2 9 2 (ofLines [['h', 'i']]) (by decide)⟩
